import Mathlib

/-!
Verification of the interval-merge-and-coverage core of the
software-camera-coverage-validator repository (src/camera-coverage.ts).

The embedding translates the two source functions `isRangeFullyCovered`
and `canCamerasCoverDesiredRange` into Lean.  Numeric values are modelled
as `Int` (all reference inputs are integers and the adjacency rule
`next.min <= current.max + 1` assumes an integer-spaced domain).
The JavaScript `sort((a, b) => a.min - b.min)` is a stable sort ascending
by `min`; it is modelled by `List.insertionSort`, which is stable.
The merge loop and the coverage walk of the source become the structural
recursions `mergeLoop` and `coverageWalk`.
-/

/-- A numeric range with a minimum and a maximum value
(source: `interface NumericRange`). -/
structure NumericRange where
  min : Int
  max : Int
deriving DecidableEq, Repr

/-- A single hardware camera capability: one distance range and one light
range (source: `interface CameraSpec`). -/
structure CameraSpec where
  distance : NumericRange
  light : NumericRange
deriving DecidableEq, Repr

/-- The comparator of the source sort `(a, b) => a.min - b.min`:
ascending by `min`. -/
def byMin (a b : NumericRange) : Prop := a.min ≤ b.min

instance : DecidableRel byMin := fun a b => Int.decLe a.min b.min

instance : IsTotal NumericRange byMin := ⟨fun a b => Int.le_total a.min b.min⟩

instance : IsTrans NumericRange byMin := ⟨fun _ _ _ h1 h2 => le_trans h1 h2⟩

/-- The source line `const sorted = [...availableRanges].sort((a, b) => a.min - b.min)`:
a stable sort of a copy of the input, ascending by `min`. -/
def sortByMin (l : List NumericRange) : List NumericRange :=
  List.insertionSort byMin l

/-- The merge loop of `isRangeFullyCovered`: `current` is the accumulator
(initialised from `sorted[0]` by the caller) and the argument list is the
remaining sorted ranges (`i = 1 ..`).  If `next.min <= current.max + 1`
the ranges overlap or touch and the accumulator is extended to
`max(current.max, next.max)`; otherwise `current` is emitted and the
accumulator restarts at `next`.  After the loop the final accumulator is
emitted. -/
def mergeLoop (current : NumericRange) : List NumericRange → List NumericRange
  | [] => [current]
  | next :: rest =>
    if next.min ≤ current.max + 1 then
      mergeLoop ⟨current.min, max current.max next.max⟩ rest
    else
      current :: mergeLoop next rest

/-- The merged-block sequence computed by `isRangeFullyCovered` before the
coverage walk: sort ascending by `min`, then coalesce with `mergeLoop`.
Empty input gives an empty block list (the source returns `false` before
reaching this point). -/
def mergedBlocks (availableRanges : List NumericRange) : List NumericRange :=
  match sortByMin availableRanges with
  | [] => []
  | first :: rest => mergeLoop first rest

/-- The coverage walk of `isRangeFullyCovered`: `coverageStart` begins at
`desired.min`; for each merged range, a range starting after
`coverageStart` is a gap (`false`), a range reaching `desired.max` is full
coverage (`true`), otherwise `coverageStart` becomes `range.max + 1`.
Exhausting the ranges gives `false`. -/
def coverageWalk (desiredMax : Int) : Int → List NumericRange → Bool
  | _, [] => false
  | coverageStart, range :: rest =>
    if range.min > coverageStart then false
    else if range.max ≥ desiredMax then true
    else coverageWalk desiredMax (range.max + 1) rest

/-- Source function `isRangeFullyCovered(desired, availableRanges)`:
empty input returns `false`; otherwise sort, merge and walk. -/
def isRangeFullyCovered (desired : NumericRange)
    (availableRanges : List NumericRange) : Bool :=
  if availableRanges.length = 0 then false
  else coverageWalk desired.max desired.min (mergedBlocks availableRanges)

/-- Source function `canCamerasCoverDesiredRange`: project the distance
and light ranges of the cameras and require both axes to be fully
covered. -/
def canCamerasCoverDesiredRange (desiredDistance desiredLight : NumericRange)
    (hardwareCameras : List CameraSpec) : Bool :=
  let distanceRanges := hardwareCameras.map fun c => c.distance
  let lightRanges := hardwareCameras.map fun c => c.light
  let distanceCovered := isRangeFullyCovered desiredDistance distanceRanges
  let lightCovered := isRangeFullyCovered desiredLight lightRanges
  distanceCovered && lightCovered

/-- Well-formedness of a range: the invariant `min ≤ max` of the spec. -/
def NumericRange.WF (r : NumericRange) : Prop := r.min ≤ r.max

instance (r : NumericRange) : Decidable r.WF := Int.decLe r.min r.max

/-- The union of a list of ranges contains the integer point `x`. -/
def coversPoint (l : List NumericRange) (x : Int) : Prop :=
  ∃ r ∈ l, r.min ≤ x ∧ x ≤ r.max

/-- The union of the candidate ranges contains every integer value of the
closed range `[target.min, target.max]` (the contract stated by the
spec). -/
def coversRange (target : NumericRange) (l : List NumericRange) : Prop :=
  ∀ x : Int, target.min ≤ x → x ≤ target.max → coversPoint l x

/-- Separation of consecutive merged blocks: the next block starts more
than one unit after the previous block ends. -/
def gapSep (a b : NumericRange) : Prop := a.max + 1 < b.min

theorem coversPoint_nil (x : Int) : ¬ coversPoint [] x := by
  rintro ⟨r, hr, -⟩
  exact absurd hr (List.not_mem_nil r)

theorem coversPoint_cons {r : NumericRange} {l : List NumericRange} {x : Int} :
    coversPoint (r :: l) x ↔ (r.min ≤ x ∧ x ≤ r.max) ∨ coversPoint l x := by
  constructor
  · rintro ⟨s, hs, h⟩
    rcases List.mem_cons.mp hs with rfl | hs
    · exact Or.inl h
    · exact Or.inr ⟨s, hs, h⟩
  · rintro (h | ⟨s, hs, h⟩)
    · exact ⟨r, List.mem_cons_self r l, h⟩
    · exact ⟨s, List.mem_cons_of_mem r hs, h⟩

theorem coversPoint_perm {l₁ l₂ : List NumericRange} (h : l₁.Perm l₂) (x : Int) :
    coversPoint l₁ x ↔ coversPoint l₂ x := by
  constructor <;> rintro ⟨r, hr, hx⟩
  · exact ⟨r, h.mem_iff.mp hr, hx⟩
  · exact ⟨r, h.mem_iff.mpr hr, hx⟩

theorem sortByMin_perm (l : List NumericRange) : (sortByMin l).Perm l :=
  List.perm_insertionSort byMin l

theorem sortByMin_sorted (l : List NumericRange) :
    List.Sorted byMin (sortByMin l) :=
  List.sorted_insertionSort byMin l

theorem sortByMin_eq_nil {l : List NumericRange} (h : sortByMin l = []) :
    l = [] := by
  have := sortByMin_perm l
  rw [h] at this
  exact this.symm.eq_nil

theorem mergeLoop_head : ∀ (l : List NumericRange) (c : NumericRange),
    ∃ M tl, mergeLoop c l = ⟨c.min, M⟩ :: tl ∧ c.max ≤ M
  | [], c => ⟨c.max, [], rfl, le_refl _⟩
  | next :: rest, c => by
    unfold mergeLoop
    by_cases h : next.min ≤ c.max + 1
    · rw [if_pos h]
      obtain ⟨M, tl, heq, hle⟩ :=
        mergeLoop_head rest ⟨c.min, max c.max next.max⟩
      exact ⟨M, tl, heq, le_trans (le_max_left _ _) hle⟩
    · rw [if_neg h]
      exact ⟨c.max, mergeLoop next rest, rfl, le_refl _⟩

theorem mergeLoop_chain : ∀ (l : List NumericRange) (c : NumericRange),
    List.Chain' gapSep (mergeLoop c l)
  | [], c => List.chain'_singleton c
  | next :: rest, c => by
    unfold mergeLoop
    by_cases h : next.min ≤ c.max + 1
    · rw [if_pos h]
      exact mergeLoop_chain rest ⟨c.min, max c.max next.max⟩
    · rw [if_neg h]
      obtain ⟨M, tl, heq, -⟩ := mergeLoop_head rest next
      rw [heq]
      refine List.chain'_cons.mpr ⟨?_, ?_⟩
      · show c.max + 1 < next.min
        omega
      · rw [← heq]
        exact mergeLoop_chain rest next

theorem mergeLoop_wf : ∀ (l : List NumericRange) (c : NumericRange),
    c.WF → (∀ r ∈ l, r.WF) → ∀ b ∈ mergeLoop c l, b.WF
  | [], c, hc, _, b, hb => by
    unfold mergeLoop at hb
    rcases List.mem_singleton.mp hb with rfl
    exact hc
  | next :: rest, c, hc, hl, b, hb => by
    unfold mergeLoop at hb
    by_cases h : next.min ≤ c.max + 1
    · rw [if_pos h] at hb
      refine mergeLoop_wf rest ⟨c.min, max c.max next.max⟩ ?_ ?_ b hb
      · exact le_trans hc (le_max_left _ _)
      · exact fun r hr => hl r (List.mem_cons_of_mem next hr)
    · rw [if_neg h] at hb
      rcases List.mem_cons.mp hb with rfl | hb
      · exact hc
      · refine mergeLoop_wf rest next ?_ ?_ b hb
        · exact hl next (List.mem_cons_self next rest)
        · exact fun r hr => hl r (List.mem_cons_of_mem next hr)

theorem mergeLoop_coversPoint (x : Int) :
    ∀ (l : List NumericRange) (c : NumericRange), c.WF → (∀ r ∈ l, r.WF) →
      List.Sorted byMin (c :: l) →
      (coversPoint (mergeLoop c l) x ↔ coversPoint (c :: l) x)
  | [], c, _, _, _ => by
    unfold mergeLoop
    exact Iff.rfl
  | next :: rest, c, hc, hl, hs => by
    have hsort := List.sorted_cons.mp hs
    have hsort2 := List.sorted_cons.mp hsort.2
    have hnextwf : next.WF := hl next (List.mem_cons_self next rest)
    have hrestwf : ∀ r ∈ rest, r.WF :=
      fun r hr => hl r (List.mem_cons_of_mem next hr)
    have hcmin : c.min ≤ next.min := hsort.1 next (List.mem_cons_self next rest)
    unfold mergeLoop
    by_cases h : next.min ≤ c.max + 1
    · rw [if_pos h]
      have hwf2 : NumericRange.WF ⟨c.min, max c.max next.max⟩ :=
        le_trans hc (le_max_left _ _)
      have hsorted2 : List.Sorted byMin (⟨c.min, max c.max next.max⟩ :: rest) := by
        refine List.sorted_cons.mpr ⟨?_, hsort2.2⟩
        intro b hb
        exact hsort.1 b (List.mem_cons_of_mem next hb)
      rw [mergeLoop_coversPoint x rest ⟨c.min, max c.max next.max⟩ hwf2 hrestwf hsorted2]
      rw [coversPoint_cons, coversPoint_cons, coversPoint_cons]
      have hc' : c.min ≤ c.max := hc
      have hn' : next.min ≤ next.max := hnextwf
      constructor
      · rintro (⟨h1, h2⟩ | hrest)
        · simp only [max_le_iff, le_max_iff] at h2 ⊢
          rcases h2 with h2 | h2
          · exact Or.inl ⟨h1, h2⟩
          · by_cases hxc : x ≤ c.max
            · exact Or.inl ⟨h1, hxc⟩
            · exact Or.inr (Or.inl ⟨by omega, h2⟩)
        · exact Or.inr (Or.inr hrest)
      · rintro (⟨h1, h2⟩ | ⟨h1, h2⟩ | hrest)
        · exact Or.inl ⟨h1, le_trans h2 (le_max_left _ _)⟩
        · exact Or.inl ⟨le_trans hcmin h1, le_trans h2 (le_max_right _ _)⟩
        · exact Or.inr hrest
    · rw [if_neg h]
      have hih := mergeLoop_coversPoint x rest next hnextwf hrestwf hsort.2
      simp only [coversPoint_cons] at hih ⊢
      rw [hih]

theorem gap_tail_lt : ∀ (tl : List NumericRange) (b : NumericRange),
    List.Chain' gapSep (b :: tl) → (∀ r ∈ tl, r.WF) →
    ∀ b2 ∈ tl, b.max + 1 < b2.min
  | [], _, _, _, b2, hb2 => absurd hb2 (List.not_mem_nil b2)
  | c :: tl2, b, hchain, hwf, b2, hb2 => by
    have hbc : gapSep b c := (List.chain'_cons.mp hchain).1
    have hrest := (List.chain'_cons.mp hchain).2
    rcases List.mem_cons.mp hb2 with rfl | hb2
    · exact hbc
    · have hcwf : c.WF := hwf c (List.mem_cons_self c tl2)
      have := gap_tail_lt tl2 c hrest
        (fun r hr => hwf r (List.mem_cons_of_mem c hr)) b2 hb2
      have hcc : c.min ≤ c.max := hcwf
      have hgap : gapSep b c := hbc
      unfold gapSep at hgap
      omega

theorem gap_pairwise : ∀ (m : List NumericRange),
    (∀ b ∈ m, b.WF) → List.Chain' gapSep m →
    List.Pairwise (fun a b => a.min < b.min) m
  | [], _, _ => List.Pairwise.nil
  | b :: tl, hwf, hchain => by
    refine List.Pairwise.cons ?_ ?_
    · intro b2 hb2
      have h1 := gap_tail_lt tl b hchain
        (fun r hr => hwf r (List.mem_cons_of_mem b hr)) b2 hb2
      have h2 : b.min ≤ b.max := hwf b (List.mem_cons_self b tl)
      omega
    · exact gap_pairwise tl
        (fun r hr => hwf r (List.mem_cons_of_mem b hr)) hchain.tail

theorem mergeLoop_of_gap : ∀ (tl : List NumericRange) (b : NumericRange),
    List.Chain' gapSep (b :: tl) → mergeLoop b tl = b :: tl
  | [], b, _ => rfl
  | c :: tl2, b, hchain => by
    have hbc : gapSep b c := (List.chain'_cons.mp hchain).1
    unfold mergeLoop
    rw [if_neg (by unfold gapSep at hbc; omega)]
    rw [mergeLoop_of_gap tl2 c (List.chain'_cons.mp hchain).2]

theorem coverageWalk_head (M s : Int) (b : NumericRange)
    (bs : List NumericRange) (hchain : List.Chain' gapSep (b :: bs)) :
    coverageWalk M s (b :: bs) = (decide (b.min ≤ s) && decide (M ≤ b.max)) := by
  unfold coverageWalk
  by_cases h1 : b.min > s
  · rw [if_pos h1]
    have : ¬ (b.min ≤ s) := by omega
    simp [this]
  · rw [if_neg h1]
    by_cases h2 : b.max ≥ M
    · rw [if_pos h2]
      have hs : b.min ≤ s := by omega
      have hM : M ≤ b.max := h2
      simp [hs, hM]
    · rw [if_neg h2]
      have hM : ¬ (M ≤ b.max) := by omega
      cases bs with
      | nil =>
        simp [coverageWalk, hM]
      | cons b2 tl =>
        have hgap : gapSep b b2 := (List.chain'_cons.mp hchain).1
        unfold coverageWalk
        rw [if_pos (by unfold gapSep at hgap; omega)]
        simp [hM]

theorem mergedBlocks_chain (l : List NumericRange) :
    List.Chain' gapSep (mergedBlocks l) := by
  unfold mergedBlocks
  cases h : sortByMin l with
  | nil => exact List.chain'_nil
  | cons first rest => exact mergeLoop_chain rest first

theorem mergedBlocks_wf (l : List NumericRange) (hwf : ∀ r ∈ l, r.WF) :
    ∀ b ∈ mergedBlocks l, b.WF := by
  unfold mergedBlocks
  cases h : sortByMin l with
  | nil => intro b hb; exact absurd hb (List.not_mem_nil b)
  | cons first rest =>
    have hmem : ∀ r ∈ first :: rest, r.WF := by
      intro r hr
      refine hwf r ?_
      exact (sortByMin_perm l).mem_iff.mp (h ▸ hr)
    exact mergeLoop_wf rest first (hmem first (List.mem_cons_self first rest))
      (fun r hr => hmem r (List.mem_cons_of_mem first hr))

theorem mergedBlocks_ne_nil {l : List NumericRange} (hne : l ≠ []) :
    ∃ b tl, mergedBlocks l = b :: tl := by
  unfold mergedBlocks
  cases h : sortByMin l with
  | nil => exact absurd (sortByMin_eq_nil h) hne
  | cons first rest =>
    obtain ⟨M, tl, heq, -⟩ := mergeLoop_head rest first
    exact ⟨⟨first.min, M⟩, tl, heq⟩

theorem isRange_eq_head (t : NumericRange) (l : List NumericRange)
    (b : NumericRange) (tl : List NumericRange)
    (h : mergedBlocks l = b :: tl) :
    isRangeFullyCovered t l
      = (decide (b.min ≤ t.min) && decide (t.max ≤ b.max)) := by
  have hlne : l ≠ [] := by
    intro hl
    rw [hl] at h
    simp [mergedBlocks, sortByMin] at h
  unfold isRangeFullyCovered
  rw [if_neg (by simpa [List.length_eq_zero] using hlne)]
  rw [h]
  exact coverageWalk_head t.max t.min b tl (h ▸ mergedBlocks_chain l)

theorem mergedBlocks_coversPoint (l : List NumericRange)
    (hwf : ∀ r ∈ l, r.WF) (x : Int) :
    coversPoint (mergedBlocks l) x ↔ coversPoint l x := by
  unfold mergedBlocks
  cases h : sortByMin l with
  | nil => rw [sortByMin_eq_nil h]
  | cons first rest =>
    have hperm := sortByMin_perm l
    rw [h] at hperm
    have hwfs : ∀ r ∈ first :: rest, r.WF :=
      fun r hr => hwf r (hperm.mem_iff.mp hr)
    have hsorted : List.Sorted byMin (first :: rest) := h ▸ sortByMin_sorted l
    rw [mergeLoop_coversPoint x rest first
      (hwfs first (List.mem_cons_self first rest))
      (fun r hr => hwfs r (List.mem_cons_of_mem first hr)) hsorted]
    exact coversPoint_perm hperm x

theorem mergedBlocks_head_min_le (l : List NumericRange) (b : NumericRange)
    (tl : List NumericRange) (h : mergedBlocks l = b :: tl) :
    ∀ x, coversPoint l x → b.min ≤ x := by
  unfold mergedBlocks at h
  cases hs : sortByMin l with
  | nil => rw [hs] at h; exact absurd h (by simp)
  | cons first rest =>
    rw [hs] at h
    have h' : mergeLoop first rest = b :: tl := h
    obtain ⟨M, tl2, heq, -⟩ := mergeLoop_head rest first
    rw [heq] at h'
    have hbmin : b.min = first.min := by
      have := congrArg (fun l => List.head? l) h'
      simp at this
      rw [← this]
    intro x hx
    obtain ⟨r, hr, h1, h2⟩ := hx
    have hrs : r ∈ first :: rest := by
      rw [← hs]
      exact (sortByMin_perm l).mem_iff.mpr hr
    have hsorted : List.Sorted byMin (first :: rest) := hs ▸ sortByMin_sorted l
    have hfr : first.min ≤ r.min := by
      rcases List.mem_cons.mp hrs with rfl | hrs
      · exact le_refl _
      · exact (List.sorted_cons.mp hsorted).1 r hrs
    rw [hbmin]
    omega

theorem mergedBlocks_head_covers (l : List NumericRange) (b : NumericRange)
    (tl : List NumericRange) (hwf : ∀ r ∈ l, r.WF)
    (h : mergedBlocks l = b :: tl) :
    ∀ x, b.min ≤ x → x ≤ b.max → coversPoint l x := by
  intro x h1 h2
  rw [← mergedBlocks_coversPoint l hwf x, h, coversPoint_cons]
  exact Or.inl ⟨h1, h2⟩

theorem mergedBlocks_not_covered (l : List NumericRange) (b : NumericRange)
    (tl : List NumericRange) (hwf : ∀ r ∈ l, r.WF)
    (h : mergedBlocks l = b :: tl) :
    ¬ coversPoint l (b.max + 1) := by
  intro hcov
  rw [← mergedBlocks_coversPoint l hwf, h, coversPoint_cons] at hcov
  have hch : List.Chain' gapSep (b :: tl) := by
    rw [← h]; exact mergedBlocks_chain l
  have hwftl : ∀ r ∈ tl, r.WF := by
    intro r hr
    refine mergedBlocks_wf l hwf r ?_
    rw [h]
    exact List.mem_cons_of_mem b hr
  rcases hcov with ⟨h1, h2⟩ | ⟨b2, hb2, h1, h2⟩
  · omega
  · have := gap_tail_lt tl b hch hwftl b2 hb2
    omega

theorem isRange_ext (t : NumericRange) (l₁ l₂ : List NumericRange)
    (hwf₁ : ∀ r ∈ l₁, r.WF) (hwf₂ : ∀ r ∈ l₂, r.WF)
    (hnil : l₁ = [] ↔ l₂ = [])
    (hcov : ∀ x, coversPoint l₁ x ↔ coversPoint l₂ x) :
    isRangeFullyCovered t l₁ = isRangeFullyCovered t l₂ := by
  by_cases h1 : l₁ = []
  · have h2 := hnil.mp h1
    subst h1
    subst h2
    rfl
  · have h2 : l₂ ≠ [] := fun hh => h1 (hnil.mpr hh)
    obtain ⟨b₁, tl₁, hm₁⟩ := mergedBlocks_ne_nil h1
    obtain ⟨b₂, tl₂, hm₂⟩ := mergedBlocks_ne_nil h2
    have hb₁wf : b₁.min ≤ b₁.max := by
      refine mergedBlocks_wf l₁ hwf₁ b₁ ?_
      rw [hm₁]; exact List.mem_cons_self _ _
    have hb₂wf : b₂.min ≤ b₂.max := by
      refine mergedBlocks_wf l₂ hwf₂ b₂ ?_
      rw [hm₂]; exact List.mem_cons_self _ _
    have hmin₁₂ : b₁.min ≤ b₂.min :=
      mergedBlocks_head_min_le l₁ b₁ tl₁ hm₁ b₂.min
        ((hcov _).mpr (mergedBlocks_head_covers l₂ b₂ tl₂ hwf₂ hm₂ b₂.min
          (le_refl _) hb₂wf))
    have hmin₂₁ : b₂.min ≤ b₁.min :=
      mergedBlocks_head_min_le l₂ b₂ tl₂ hm₂ b₁.min
        ((hcov _).mp (mergedBlocks_head_covers l₁ b₁ tl₁ hwf₁ hm₁ b₁.min
          (le_refl _) hb₁wf))
    have hmax₁₂ : b₁.max ≤ b₂.max := by
      by_contra hlt
      push_neg at hlt
      have hx : coversPoint l₁ (b₂.max + 1) :=
        mergedBlocks_head_covers l₁ b₁ tl₁ hwf₁ hm₁ (b₂.max + 1)
          (by omega) (by omega)
      exact mergedBlocks_not_covered l₂ b₂ tl₂ hwf₂ hm₂ ((hcov _).mp hx)
    have hmax₂₁ : b₂.max ≤ b₁.max := by
      by_contra hlt
      push_neg at hlt
      have hx : coversPoint l₂ (b₁.max + 1) :=
        mergedBlocks_head_covers l₂ b₂ tl₂ hwf₂ hm₂ (b₁.max + 1)
          (by omega) (by omega)
      exact mergedBlocks_not_covered l₁ b₁ tl₁ hwf₁ hm₁ ((hcov _).mpr hx)
    rw [isRange_eq_head t l₁ b₁ tl₁ hm₁, isRange_eq_head t l₂ b₂ tl₂ hm₂,
      le_antisymm hmin₁₂ hmin₂₁, le_antisymm hmax₁₂ hmax₂₁]

theorem isRange_perm (t : NumericRange) (l₁ l₂ : List NumericRange)
    (hperm : l₁.Perm l₂) (hwf : ∀ r ∈ l₁, r.WF) :
    isRangeFullyCovered t l₁ = isRangeFullyCovered t l₂ := by
  refine isRange_ext t l₁ l₂ hwf (fun r hr => hwf r (hperm.mem_iff.mpr hr))
    ⟨?_, ?_⟩ (fun x => coversPoint_perm hperm x)
  · intro h
    subst h
    exact hperm.symm.eq_nil
  · intro h
    subst h
    exact hperm.eq_nil

theorem mergedBlocks_fixed (m : List NumericRange)
    (hsorted : List.Sorted byMin m) (hch : List.Chain' gapSep m) :
    mergedBlocks m = m := by
  have hsort_eq : sortByMin m = m := List.Sorted.insertionSort_eq hsorted
  unfold mergedBlocks
  rw [hsort_eq]
  cases m with
  | nil => rfl
  | cons b tl => exact mergeLoop_of_gap tl b hch

/-- Claim C1: the spec contract says `isRangeFullyCovered(target, candidates)`
is `true` iff the union of the candidates contains every value of
`[target.min, target.max]`.  The code violates this contract: on the
well-formed target `[3,10]` with well-formed candidates `[0,1]` and
`[3,10]` the union contains every value of `[3,10]`, yet the function
returns `false` (the coverage walk moves `coverageStart` backwards to
`0.max + 1 = 2` and then reports a gap before the block `[3,10]`).  This
also contradicts the function's own doc comment. -/
theorem claim_C1 :
    (⟨3, 10⟩ : NumericRange).WF
    ∧ (∀ r ∈ ([⟨0, 1⟩, ⟨3, 10⟩] : List NumericRange), r.WF)
    ∧ coversRange ⟨3, 10⟩ [⟨0, 1⟩, ⟨3, 10⟩]
    ∧ isRangeFullyCovered ⟨3, 10⟩ [⟨0, 1⟩, ⟨3, 10⟩] = false := by
  refine ⟨by decide, by decide, ?_, by decide⟩
  intro x h1 h2
  exact ⟨⟨3, 10⟩, by simp, h1, h2⟩

/-- Claim C2: `canCamerasCoverDesiredRange` equals the logical AND of the
two per-axis `isRangeFullyCovered` calls on the projected distance and
light ranges. -/
theorem claim_C2 (tA tB : NumericRange) (cams : List CameraSpec) :
    canCamerasCoverDesiredRange tA tB cams
      = (isRangeFullyCovered tA (cams.map fun c => c.distance)
          && isRangeFullyCovered tB (cams.map fun c => c.light)) := rfl

/-- Claim C3: touching intervals `[a,b]` and `[b+1,c]` merge, so the
target `[a,c]` is covered; a one-value gap (`[a,b]` and `[b+2,c]`) is
detected and the result is `false`. -/
theorem claim_C3 (a b c : Int) :
    (a ≤ b → b + 1 ≤ c →
      isRangeFullyCovered ⟨a, c⟩ [⟨a, b⟩, ⟨b + 1, c⟩] = true)
    ∧ (a ≤ b → b + 2 ≤ c →
      isRangeFullyCovered ⟨a, c⟩ [⟨a, b⟩, ⟨b + 2, c⟩] = false) := by
  constructor
  · intro hab hbc
    have hle : byMin ⟨a, b⟩ ⟨b + 1, c⟩ := by show a ≤ b + 1; omega
    have hsort : sortByMin [⟨a, b⟩, ⟨b + 1, c⟩] = [⟨a, b⟩, ⟨b + 1, c⟩] := by
      unfold sortByMin
      simp only [List.insertionSort, List.orderedInsert]
      rw [if_pos hle]
    have hcond : (⟨b + 1, c⟩ : NumericRange).min ≤ (⟨a, b⟩ : NumericRange).max + 1 := by
      show b + 1 ≤ b + 1; omega
    have hmerge : mergedBlocks [⟨a, b⟩, ⟨b + 1, c⟩] = [⟨a, max b c⟩] := by
      unfold mergedBlocks
      rw [hsort]
      show mergeLoop ⟨a, b⟩ [⟨b + 1, c⟩] = [⟨a, max b c⟩]
      unfold mergeLoop
      rw [if_pos hcond]
      rfl
    rw [isRange_eq_head ⟨a, c⟩ [⟨a, b⟩, ⟨b + 1, c⟩] ⟨a, max b c⟩ [] hmerge]
    simp only [Bool.and_eq_true, decide_eq_true_eq]
    exact ⟨le_refl a, le_max_right b c⟩
  · intro hab hbc
    have hle : byMin ⟨a, b⟩ ⟨b + 2, c⟩ := by show a ≤ b + 2; omega
    have hsort : sortByMin [⟨a, b⟩, ⟨b + 2, c⟩] = [⟨a, b⟩, ⟨b + 2, c⟩] := by
      unfold sortByMin
      simp only [List.insertionSort, List.orderedInsert]
      rw [if_pos hle]
    have hcond : ¬ (⟨b + 2, c⟩ : NumericRange).min ≤ (⟨a, b⟩ : NumericRange).max + 1 := by
      show ¬ (b + 2 ≤ b + 1); omega
    have hmerge : mergedBlocks [⟨a, b⟩, ⟨b + 2, c⟩] = [⟨a, b⟩, ⟨b + 2, c⟩] := by
      unfold mergedBlocks
      rw [hsort]
      show mergeLoop ⟨a, b⟩ [⟨b + 2, c⟩] = [⟨a, b⟩, ⟨b + 2, c⟩]
      unfold mergeLoop
      rw [if_neg hcond]
      rfl
    rw [isRange_eq_head ⟨a, c⟩ [⟨a, b⟩, ⟨b + 2, c⟩] ⟨a, b⟩ [⟨b + 2, c⟩] hmerge]
    have h2 : ¬ ((⟨a, c⟩ : NumericRange).max ≤ (⟨a, b⟩ : NumericRange).max) := by
      show ¬ (c ≤ b); omega
    simp [h2]

/-- Witness for claim C3 at `a = 1`, `b = 3`, `c = 5`. -/
theorem claim_C3_witness :
    isRangeFullyCovered ⟨1, 5⟩ [⟨1, 3⟩, ⟨4, 5⟩] = true
    ∧ isRangeFullyCovered ⟨1, 5⟩ [⟨1, 3⟩, ⟨5, 5⟩] = false :=
  ⟨(claim_C3 1 3 5).1 (by decide) (by decide),
   (claim_C3 1 3 5).2 (by decide) (by decide)⟩

/-- Claim C4: on a non-empty list of well-formed ranges, the merge pass
produces well-formed blocks, sorted strictly ascending by `min`, with
consecutive blocks separated by more than one unit
(`next.min > previous.max + 1`). -/
theorem claim_C4 (l : List NumericRange) (hne : l ≠ [])
    (hwf : ∀ r ∈ l, r.WF) :
    (∀ b ∈ mergedBlocks l, b.WF)
    ∧ List.Pairwise (fun a b => a.min < b.min) (mergedBlocks l)
    ∧ List.Chain' (fun a b => a.max + 1 < b.min) (mergedBlocks l) := by
  have hch := mergedBlocks_chain l
  have hwfm := mergedBlocks_wf l hwf
  exact ⟨hwfm, gap_pairwise (mergedBlocks l) hwfm hch, hch⟩

/-- Witness for claim C4 at the list `[[7,9], [1,3]]`. -/
theorem claim_C4_witness :
    (∀ b ∈ mergedBlocks [⟨7, 9⟩, ⟨1, 3⟩], b.WF)
    ∧ List.Pairwise (fun a b => a.min < b.min) (mergedBlocks [⟨7, 9⟩, ⟨1, 3⟩])
    ∧ List.Chain' (fun a b => a.max + 1 < b.min) (mergedBlocks [⟨7, 9⟩, ⟨1, 3⟩]) :=
  claim_C4 [⟨7, 9⟩, ⟨1, 3⟩] (by decide) (by decide)

/-- Claim C5: `isRangeFullyCovered` is invariant under any permutation of
a list of well-formed candidates, for every target. -/
theorem claim_C5 (t : NumericRange) (l₁ l₂ : List NumericRange)
    (hperm : l₁.Perm l₂) (hwf : ∀ r ∈ l₁, r.WF) :
    isRangeFullyCovered t l₁ = isRangeFullyCovered t l₂ :=
  isRange_perm t l₁ l₂ hperm hwf

/-- Witness for claim C5: swapping the two candidates of `[[0,2], [3,5]]`. -/
theorem claim_C5_witness :
    isRangeFullyCovered ⟨0, 5⟩ [⟨0, 2⟩, ⟨3, 5⟩]
      = isRangeFullyCovered ⟨0, 5⟩ [⟨3, 5⟩, ⟨0, 2⟩] :=
  claim_C5 ⟨0, 5⟩ _ _ (List.Perm.swap _ _ _) (by decide)

/-- Claim C6: the spec says adding an interval to the candidates never
turns a `true` result into `false`.  The code violates this: the target
`[5,10]` is covered by the single candidate `[5,10]`, but after adding the
well-formed interval `[0,1]` the function returns `false` (the walk
rewinds `coverageStart` to `1 + 1 = 2` and then reports a gap before
`[5,10]`). -/
theorem claim_C6 :
    (∀ r ∈ ([⟨0, 1⟩, ⟨5, 10⟩] : List NumericRange), r.WF)
    ∧ isRangeFullyCovered ⟨5, 10⟩ [⟨5, 10⟩] = true
    ∧ isRangeFullyCovered ⟨5, 10⟩ [⟨0, 1⟩, ⟨5, 10⟩] = false := by decide

/-- Claim C7: re-running the merge pass on the output of the merge pass
(on a non-empty list of well-formed ranges) yields the same sequence. -/
theorem claim_C7 (l : List NumericRange) (hne : l ≠ [])
    (hwf : ∀ r ∈ l, r.WF) :
    mergedBlocks (mergedBlocks l) = mergedBlocks l := by
  have hch := mergedBlocks_chain l
  have hwfm := mergedBlocks_wf l hwf
  have hsorted : List.Sorted byMin (mergedBlocks l) :=
    (gap_pairwise (mergedBlocks l) hwfm hch).imp (fun h => le_of_lt h)
  exact mergedBlocks_fixed (mergedBlocks l) hsorted hch

/-- Witness for claim C7 at the list `[[4,6], [1,2]]`. -/
theorem claim_C7_witness :
    mergedBlocks (mergedBlocks [⟨4, 6⟩, ⟨1, 2⟩]) = mergedBlocks [⟨4, 6⟩, ⟨1, 2⟩] :=
  claim_C7 [⟨4, 6⟩, ⟨1, 2⟩] (by decide) (by decide)

/-- Claim C8: the empty candidate list always yields `false`, and an
empty camera list makes `canCamerasCoverDesiredRange` return `false`, for
every target. -/
theorem claim_C8 :
    (∀ t : NumericRange, isRangeFullyCovered t [] = false)
    ∧ (∀ tA tB : NumericRange, canCamerasCoverDesiredRange tA tB [] = false) :=
  ⟨fun _ => rfl, fun _ _ => rfl⟩

/-- Claim C9: with a single candidate `c`, the function returns `true`
iff `c.min ≤ target.min` and `target.max ≤ c.max`, for every target,
including malformed ones (`target.min > target.max`). -/
theorem claim_C9 (t c : NumericRange) :
    isRangeFullyCovered t [c] = true ↔ (c.min ≤ t.min ∧ t.max ≤ c.max) := by
  have hm : mergedBlocks [c] = [c] := rfl
  rw [isRange_eq_head t [c] c [] hm]
  simp

/-- Claim C10 counterexample: without well-formedness the pairing claim
fails.  Permuting the light intervals `[0,5]` and the malformed `[0,-10]`
between the two cameras (distances stay `[0,5]` in place) flips the
result of `canCamerasCoverDesiredRange` from `true` to `false`. -/
theorem claim_C10_counterexample :
    (List.map (fun c => c.distance)
        [(⟨⟨0, 5⟩, ⟨0, 5⟩⟩ : CameraSpec), ⟨⟨0, 5⟩, ⟨0, -10⟩⟩]
      = List.map (fun c => c.distance)
        [(⟨⟨0, 5⟩, ⟨0, -10⟩⟩ : CameraSpec), ⟨⟨0, 5⟩, ⟨0, 5⟩⟩])
    ∧ (List.map (fun c => c.light)
        [(⟨⟨0, 5⟩, ⟨0, 5⟩⟩ : CameraSpec), ⟨⟨0, 5⟩, ⟨0, -10⟩⟩]).Perm
        (List.map (fun c => c.light)
          [(⟨⟨0, 5⟩, ⟨0, -10⟩⟩ : CameraSpec), ⟨⟨0, 5⟩, ⟨0, 5⟩⟩])
    ∧ canCamerasCoverDesiredRange ⟨0, 5⟩ ⟨0, 5⟩
        [⟨⟨0, 5⟩, ⟨0, 5⟩⟩, ⟨⟨0, 5⟩, ⟨0, -10⟩⟩] = true
    ∧ canCamerasCoverDesiredRange ⟨0, 5⟩ ⟨0, 5⟩
        [⟨⟨0, 5⟩, ⟨0, -10⟩⟩, ⟨⟨0, 5⟩, ⟨0, 5⟩⟩] = false :=
  ⟨rfl, List.Perm.swap _ _ _, by decide, by decide⟩

/-- Claim C10 (amended): provided every camera interval is well-formed,
`canCamerasCoverDesiredRange` depends only on the multiset of distance
intervals and the multiset of light intervals taken separately. -/
theorem claim_C10 (tA tB : NumericRange) (cams1 cams2 : List CameraSpec)
    (hwf : ∀ cam ∈ cams1, cam.distance.WF ∧ cam.light.WF)
    (hd : (cams1.map fun c => c.distance).Perm (cams2.map fun c => c.distance))
    (hl : (cams1.map fun c => c.light).Perm (cams2.map fun c => c.light)) :
    canCamerasCoverDesiredRange tA tB cams1
      = canCamerasCoverDesiredRange tA tB cams2 := by
  have hwfd : ∀ r ∈ cams1.map fun c => c.distance, r.WF := by
    intro r hr
    obtain ⟨cam, hcam, rfl⟩ := List.mem_map.mp hr
    exact (hwf cam hcam).1
  have hwfl : ∀ r ∈ cams1.map fun c => c.light, r.WF := by
    intro r hr
    obtain ⟨cam, hcam, rfl⟩ := List.mem_map.mp hr
    exact (hwf cam hcam).2
  show (isRangeFullyCovered tA (cams1.map fun c => c.distance)
      && isRangeFullyCovered tB (cams1.map fun c => c.light))
    = (isRangeFullyCovered tA (cams2.map fun c => c.distance)
      && isRangeFullyCovered tB (cams2.map fun c => c.light))
  rw [isRange_perm tA _ _ hd hwfd, isRange_perm tB _ _ hl hwfl]

/-- Witness for the amended claim C10: swapping the well-formed light
intervals of two cameras with equal distance intervals. -/
theorem claim_C10_witness :
    canCamerasCoverDesiredRange ⟨0, 5⟩ ⟨0, 5⟩
        [⟨⟨0, 5⟩, ⟨0, 2⟩⟩, ⟨⟨0, 5⟩, ⟨3, 5⟩⟩]
      = canCamerasCoverDesiredRange ⟨0, 5⟩ ⟨0, 5⟩
        [⟨⟨0, 5⟩, ⟨3, 5⟩⟩, ⟨⟨0, 5⟩, ⟨0, 2⟩⟩] :=
  claim_C10 ⟨0, 5⟩ ⟨0, 5⟩ _ _ (by decide)
    (List.Perm.swap _ _ _) (List.Perm.swap _ _ _)
